import Mathlib

/-!
Verification of the dapla-statbank-client validation and transfer core.

The repository's Python implementation files are not available; only the
README documentation, a developer guide and demo notebooks are.  Following
the specification document, the data model and the operations
(`parse`, `validate`, `round_data`, `transferdata_template`, `submitBatch`)
are modelled here from the spec's own words, as decimal fixed-point and
list-based pure functions, and the claimed properties are proved about
these models.
-/

namespace Statbank

/-- Modelled from the spec: a cell of a tabular dataset.  The Python
implementation (not under src) stores pandas cells that are either raw
numerics (floats/ints, every binary float being a finite decimal, embedded
here as `n / 10 ^ e` decimal fixed point), already-rounded decimal-comma
strings (a string with `d` digits after the comma is embedded as its scaled
integer value `m` together with `d`), or other text. -/
inductive CellVal where
  | num (n : ℤ) (e : ℕ)
  | dec (m : ℤ) (d : ℕ)
  | txt (s : String)
deriving DecidableEq, Repr

/-- Modelled from the spec: one subtable ("deltabell") entry of a
table description, with its file name and declared column count. -/
structure SubTable where
  fileName : String
  expectedColumnCount : ℕ
deriving DecidableEq, Repr

/-- Modelled from the spec: the per-subtable variable group: categorical
variables (each naming its codelist), statistic variables (each with the
declared decimal count), and suppression columns, in declared order.
Columns of a subtable are laid out categorical ++ statistic ++ suppression. -/
structure VarGroup where
  categorical : List (String × String)
  statistic : List (String × ℕ)
  suppression : List String
deriving DecidableEq, Repr

/-- Total number of columns declared by a variable group. -/
def VarGroup.colCount (vg : VarGroup) : ℕ :=
  vg.categorical.length + vg.statistic.length + vg.suppression.length

/-- Modelled from the spec: the raw, unvalidated schema response for a
table: subtables paired with their variable groups, plus the codelists
(name mapped to its list of valid codes). -/
structure RawSchema where
  tableId : String
  entries : List (SubTable × VarGroup)
  codelists : List (String × List String)
deriving DecidableEq, Repr

/-- Modelled from the spec: the typed table description produced by a
successful schema parse (`StatbankUttrekksBeskrivelse`); immutable once
parsed. -/
structure TableDescription where
  tableId : String
  entries : List (SubTable × VarGroup)
  codelists : List (String × List String)
deriving DecidableEq, Repr

/-- A tabular frame: rows of cells. -/
abbrev Frame := List (List CellVal)

/-- A dataset: subtable file name mapped to its frame, in order. -/
abbrev Dataset := List (String × Frame)

/-- Modelled from the spec: the error raised when a schema cannot be
parsed into a consistent description. -/
inductive ParseError where
  | malformedSchema
deriving DecidableEq, Repr

/-- Checks that each subtable's declared column count equals the sum of
its categorical, statistic and suppression column counts. -/
def reconcilesB (r : RawSchema) : Bool :=
  r.entries.all (fun e => e.2.colCount == e.1.expectedColumnCount)

/-- Checks that every codelist referenced by a categorical variable is
present (by name) among the schema's codelists.  Presence only: an empty
codelist is a valid zero-code list. -/
def refsPresentB (r : RawSchema) : Bool :=
  r.entries.all (fun e =>
    e.2.categorical.all (fun c => r.codelists.any (fun cl => cl.1 == c.2)))

/-- Modelled from the spec: `parse(rawSchema) -> TableDescription`, failing
with `MalformedSchema` when the per-subtable column counts do not reconcile
or a referenced codelist is absent; no partial description on failure. -/
def parse (r : RawSchema) : Except ParseError TableDescription :=
  if reconcilesB r && refsPresentB r then
    .ok ⟨r.tableId, r.entries, r.codelists⟩
  else
    .error .malformedSchema

/-- Modelled from the spec: round-half-up of the fixed-point value
`n / 10 ^ e` to `d` decimals, returning the scaled integer result
(the value with `d` decimals is the result over `10 ^ d`).  Ties round
away from zero.  When `e ≤ d` the value is exact and only rescaled. -/
def roundScaled (n : ℤ) (e d : ℕ) : ℤ :=
  if e ≤ d then n * 10 ^ (d - e)
  else
    let s : ℤ := 10 ^ (e - d)
    if 0 ≤ n then (n + s / 2) / s else -((-n + s / 2) / s)

/-- Modelled from the spec: rounding of a single cell at a statistic
column with declared decimal count `d`: numeric cells and already-rounded
decimal cells are taken to `d` decimals; other text passes through. -/
def roundCell (d : ℕ) : CellVal → CellVal
  | .num n e => .dec (roundScaled n e d) d
  | .dec m e => .dec (roundScaled m e d) d
  | .txt s => .txt s

/-- Decimal digit characters. -/
def digitChars : List Char := ['0', '1', '2', '3', '4', '5', '6', '7', '8', '9']

/-- The character of a decimal digit. -/
def dchar (k : ℕ) : Char := digitChars.getD k '0'

/-- Fuelled most-significant-first decimal digits of a natural number. -/
def natDigitsAux : ℕ → ℕ → List Char
  | 0, _ => []
  | fuel + 1, n =>
      if n < 10 then [dchar n] else natDigitsAux fuel (n / 10) ++ [dchar (n % 10)]

/-- Decimal digits of a natural number, most significant first. -/
def natDigits (n : ℕ) : List Char := natDigitsAux (n + 1) n

/-- Exactly `d` least-significant decimal digits of `n`, zero padded. -/
def padDigits (n : ℕ) : ℕ → List Char
  | 0 => []
  | d + 1 => padDigits (n / 10) d ++ [dchar (n % 10)]

/-- Modelled from the spec: the rendered text of the scaled integer `m`
at `d` decimals, comma as decimal separator, exactly `d` digits after it,
no separator when `d = 0`. -/
def renderDecL (m : ℤ) (d : ℕ) : List Char :=
  (if m < 0 then ['-'] else []) ++
    (if d = 0 then natDigits m.natAbs
     else natDigits (m.natAbs / 10 ^ d) ++ [','] ++ padDigits (m.natAbs % 10 ^ d) d)

/-- String form of `renderDecL`. -/
def renderDec (m : ℤ) (d : ℕ) : String := ⟨renderDecL m d⟩

/-- Declared decimal count for column index `i` of a variable group:
`some d` exactly for statistic columns, `none` otherwise (categorical and
suppression columns pass through rounding unchanged). -/
def colSpec (vg : VarGroup) (i : ℕ) : Option ℕ :=
  if i < vg.categorical.length then none
  else if i < vg.categorical.length + vg.statistic.length then
    some (vg.statistic.getD (i - vg.categorical.length) ("", 0)).2
  else none

/-- Rounds the cells of one row from column index `i` onward, applying
the declared decimal count of each statistic column. -/
def roundRowAux (vg : VarGroup) (i : ℕ) : List CellVal → List CellVal
  | [] => []
  | c :: cs =>
      (match colSpec vg i with
       | some d => roundCell d c
       | none => c) :: roundRowAux vg (i + 1) cs

/-- The variable group of the subtable with the given file name, if any. -/
def findVg (desc : TableDescription) (nm : String) : Option VarGroup :=
  (desc.entries.find? (fun e => e.1.fileName == nm)).map Prod.snd

/-- Rounds one named frame of a dataset against the description. -/
def roundFrameFor (desc : TableDescription) (nm : String) (fr : Frame) : Frame :=
  match findVg desc nm with
  | some vg => fr.map (roundRowAux vg 0)
  | none => fr

/-- Modelled from the spec: `round_data(dataset, description)`, producing a
new dataset in which every statistic column with declared decimal count `d`
holds the round-half-up value rendered at `d` comma decimals; all other
cells and all subtable names pass through unchanged. -/
def round_data (ds : Dataset) (desc : TableDescription) : Dataset :=
  ds.map (fun p => (p.1, roundFrameFor desc p.1 p.2))

/-- Modelled from the spec: severity of a validation finding. -/
inductive Severity where
  | info
  | warning
  | error
deriving DecidableEq, Repr

/-- Modelled from the spec: category of a validation finding. -/
inductive Category where
  | subtableCount
  | columnCount
  | categoricalCode
  | suppressionCode
  | timeFormat
  | numericPrecision
deriving DecidableEq, Repr

/-- Modelled from the spec: one validation finding; `codes` lists the
offending values for categorical-code errors. -/
structure Finding where
  severity : Severity
  category : Category
  subtable : String
  column : Option String
  codes : List CellVal
deriving DecidableEq, Repr

/-- The codes of the named codelist, empty when absent. -/
def lookupCodes (cls : List (String × List String)) (nm : String) : List String :=
  ((cls.find? (fun c => c.1 == nm)).map Prod.snd).getD []

/-- Column `i` of a frame: the cell of each row holding one. -/
def column (fr : Frame) (i : ℕ) : List CellVal :=
  fr.filterMap (fun row => row.get? i)

/-- Whether a cell equals one of the codelist's codes. -/
def isCode (codes : List String) (v : CellVal) : Bool :=
  codes.any (fun c => v == .txt c)

/-- The distinct values of a column that are not in the codelist:
deduplicated, each offending value named exactly once. -/
def catOffenders (codes : List String) (col : List CellVal) : List CellVal :=
  col.dedup.filter (fun v => !(isCode codes v))

/-- Categorical-code findings of one subtable: one error per categorical
column holding values outside its codelist, listing the deduplicated
offending values. -/
def catFindings (desc : TableDescription) (st : SubTable) (vg : VarGroup)
    (fr : Frame) : List Finding :=
  (List.range vg.categorical.length).flatMap (fun i =>
    if (catOffenders (lookupCodes desc.codelists
          (vg.categorical.getD i ("", "")).2) (column fr i)).isEmpty then []
    else [⟨.error, .categoricalCode, st.fileName,
      some (vg.categorical.getD i ("", "")).1,
      catOffenders (lookupCodes desc.codelists
        (vg.categorical.getD i ("", "")).2) (column fr i)⟩])

/-- Column-count finding of one subtable: an error when some row's width
differs from the declared column count. -/
def colCountFindings (st : SubTable) (fr : Frame) : List Finding :=
  if fr.any (fun row => row.length ≠ st.expectedColumnCount) then
    [⟨.error, .columnCount, st.fileName, none, []⟩]
  else []

/-- Whether a cell has more fractional digits than the declared decimal
count `d` (so that rounding would change it). -/
def needsRounding (d : ℕ) : CellVal → Bool
  | .num n e => if e ≤ d then false else decide (n % 10 ^ (e - d) ≠ 0)
  | .dec m e => if e ≤ d then false else decide (m % 10 ^ (e - d) ≠ 0)
  | .txt _ => false

/-- Numeric-precision findings of one subtable: a warning (never an error)
per statistic column holding values with more fractional digits than the
declared decimal count, recommending rounding. -/
def precFindings (st : SubTable) (vg : VarGroup) (fr : Frame) : List Finding :=
  (List.range vg.statistic.length).flatMap (fun j =>
    if (column fr (vg.categorical.length + j)).any
        (needsRounding (vg.statistic.getD j ("", 0)).2) then
      [⟨.warning, .numericPrecision, st.fileName,
        some (vg.statistic.getD j ("", 0)).1, []⟩]
    else [])

/-- All findings of one subtable paired with its submitted frame. -/
def subFindings (desc : TableDescription) (e : SubTable × VarGroup)
    (p : String × Frame) : List Finding :=
  colCountFindings e.1 p.2 ++ catFindings desc e.1 e.2 p.2 ++ precFindings e.1 e.2 p.2

/-- Modelled from the spec: `validate(dataset, description)`, a pure
function returning a categorized report.  A subtable-count mismatch is a
single error aborting the remaining checks; otherwise the per-subtable
checks run and all findings are collected. -/
def validate (ds : Dataset) (desc : TableDescription) : List Finding :=
  if ds.length ≠ desc.entries.length then
    [⟨.error, .subtableCount, "", none, []⟩]
  else
    (desc.entries.zip ds).flatMap (fun q => subFindings desc q.1 q.2)

/-- Whether a report blocks a transfer: passable iff no error findings. -/
def passable (r : List Finding) : Bool :=
  r.all (fun f => f.severity != .error)

/-- Modelled from the spec: an explicit world state used to make side
effects observable in the pure embedding; `networkCalls` counts boundary
network operations performed. -/
structure World where
  networkCalls : ℕ
deriving DecidableEq, Repr

/-- Modelled from the spec: running `validate` in the explicit-state
embedding: it touches neither the network nor the dataset, returning the
report, the caller's dataset and the unchanged world. -/
def validateRun (w : World) (ds : Dataset) (desc : TableDescription) :
    (List Finding × Dataset) × World :=
  ((validate ds desc, ds), w)

/-- Modelled from the spec: running `round_data` in the explicit-state
embedding: it produces a new dataset, returning it together with the
caller's dataset and the unchanged world. -/
def roundDataRun (w : World) (ds : Dataset) (desc : TableDescription) :
    (Dataset × Dataset) × World :=
  ((round_data ds desc, ds), w)

/-- Modelled from the spec: states of one transfer job. -/
inductive JobState where
  | created
  | delayed
  | validating
  | submitted
  | pending
  | completed
  | failed
deriving DecidableEq, Repr

/-- Modelled from the spec: one transfer job: its table, its state and its
explicitly-set credentials (loading user), when any. -/
structure TransferJob where
  tableId : String
  state : JobState
  loaduser : Option String
deriving DecidableEq, Repr

/-- Modelled from the spec: why a batch submission is refused. -/
inductive BatchError where
  | notDelayed
  | credMismatch
deriving DecidableEq, Repr

/-- Modelled from the spec: observable events of a batch submission:
one authentication prompt, and one submission per job. -/
inductive BatchEvent where
  | promptAuth
  | submitJob (tableId : String)
deriving DecidableEq, Repr

/-- Whether an event is a job submission. -/
def BatchEvent.isSubmit : BatchEvent → Bool
  | .promptAuth => false
  | .submitJob _ => true

/-- Modelled from the spec: `submitBatch(jobs)` (StatbankBatchTransfer):
requires every job be Delayed, copies the first job's credentials onto all
members, fails fast when a member already has different explicitly-set
credentials (before any submission), otherwise prompts for authentication
exactly once and submits the jobs in input order. -/
def submitBatch (jobs : List TransferJob) :
    Except BatchError (List TransferJob) × List BatchEvent :=
  if jobs.any (fun j => j.state != .delayed) then (.error .notDelayed, [])
  else
    match jobs with
    | [] => (.ok [], [])
    | first :: _ =>
        if jobs.any (fun j => j.loaduser.isSome && j.loaduser != first.loaduser) then
          (.error .credMismatch, [])
        else
          (.ok (jobs.map (fun j =>
              { j with loaduser := first.loaduser, state := .submitted })),
            .promptAuth :: jobs.map (fun j => .submitJob j.tableId))

/-- Modelled from the spec: `transferdata_template`, returning the dict
whose keys are exactly the description's subtable file names; dataframes
passed as arguments are incorporated as the values in subtable order, and
an empty placeholder frame stands in otherwise. -/
def transferdata_template (desc : TableDescription) (frames : List Frame) :
    Dataset :=
  if frames.length = (desc.entries.map (fun e => e.1.fileName)).length then
    (desc.entries.map (fun e => e.1.fileName)).zip frames
  else (desc.entries.map (fun e => e.1.fileName)).map (fun nm => (nm, ([] : Frame)))

theorem roundScaled_self (m : ℤ) (d : ℕ) : roundScaled m d d = m := by
  simp [roundScaled]

theorem roundCell_idem (d : ℕ) (c : CellVal) :
    roundCell d (roundCell d c) = roundCell d c := by
  cases c <;> simp [roundCell, roundScaled_self]

theorem roundRowAux_idem (vg : VarGroup) (i : ℕ) (row : List CellVal) :
    roundRowAux vg i (roundRowAux vg i row) = roundRowAux vg i row := by
  induction row generalizing i with
  | nil => rfl
  | cons c cs ih =>
      simp only [roundRowAux, List.cons.injEq]
      refine ⟨?_, ih (i + 1)⟩
      cases h : colSpec vg i with
      | none => simp [h]
      | some d₀ => simp [h, roundCell_idem]

theorem roundFrameFor_idem (desc : TableDescription) (nm : String) (fr : Frame) :
    roundFrameFor desc nm (roundFrameFor desc nm fr) = roundFrameFor desc nm fr := by
  unfold roundFrameFor
  cases h : findVg desc nm with
  | none => rfl
  | some vg =>
      simp only [List.map_map]
      refine List.map_congr_left (fun row _ => ?_)
      exact roundRowAux_idem vg 0 row

/-- Claim C2: the rounding operation is idempotent: for every dataset and
description, rounding twice equals rounding once; in particular a value
already rendered with `d` comma-decimal digits passes through a second
rounding unchanged. -/
theorem round_data_idem (ds : Dataset) (desc : TableDescription) :
    round_data (round_data ds desc) desc = round_data ds desc
    ∧ ∀ (m : ℤ) (d : ℕ), roundCell d (.dec m d) = .dec m d := by
  constructor
  · unfold round_data
    simp only [List.map_map]
    refine List.map_congr_left (fun p _ => ?_)
    simp [Function.comp, roundFrameFor_idem]
  · intro m d
    simp [roundCell, roundScaled_self]

theorem halfUpNearest (q s : ℤ) (hs : 0 < s) (heven : 2 * (s / 2) = s) :
    |(((q + s / 2) / s : ℤ) : ℚ) - (q : ℚ) / (s : ℚ)| ≤ 1 / 2 := by
  set hf : ℤ := s / 2 with hfdef
  set r : ℤ := (q + hf) / s with hrdef
  have hdm : s * r + (q + hf) % s = q + hf := Int.ediv_add_emod (q + hf) s
  have hm0 : 0 ≤ (q + hf) % s := Int.emod_nonneg _ (ne_of_gt hs)
  have hm1 : (q + hf) % s < s := Int.emod_lt_of_pos _ hs
  have hb1 : s * r ≤ q + hf := by omega
  have hb2 : q + hf < s * r + s := by omega
  have hsq : (0 : ℚ) < (s : ℚ) := by exact_mod_cast hs
  have hhq : (2 : ℚ) * (hf : ℚ) = (s : ℚ) := by exact_mod_cast heven
  have hb1q : (s : ℚ) * r ≤ (q : ℚ) + hf := by exact_mod_cast hb1
  have hb2q : (q : ℚ) + hf < (s : ℚ) * r + s := by exact_mod_cast hb2
  rw [abs_le]
  constructor
  · have hlt : (q : ℚ) / s < (r : ℚ) + 1 / 2 := by
      rw [div_lt_iff₀ hsq]
      nlinarith
    linarith
  · have hle : (r : ℚ) - 1 / 2 ≤ (q : ℚ) / s := by
      rw [le_div_iff₀ hsq]
      nlinarith
    linarith

theorem pow_ten_even (t : ℕ) (ht : 1 ≤ t) :
    2 * ((10 : ℤ) ^ t / 2) = 10 ^ t := by
  obtain ⟨u, rfl⟩ : ∃ u, t = u + 1 := ⟨t - 1, by omega⟩
  rw [pow_succ]
  have hdiv : (10 : ℤ) ^ u * 10 / 2 = 10 ^ u * 5 := by
    rw [show (10 : ℤ) ^ u * 10 = 10 ^ u * 5 * 2 from by ring]
    exact Int.mul_ediv_cancel _ (by norm_num)
  rw [hdiv]
  ring

theorem roundScaled_nearest (n : ℤ) (e d : ℕ) :
    |((roundScaled n e d : ℚ)) - (n : ℚ) / 10 ^ e * 10 ^ d| ≤ 1 / 2 := by
  by_cases he : e ≤ d
  · have h10 : ((10 : ℚ) ^ e) ≠ 0 := by positivity
    have hde : (n : ℚ) / 10 ^ e * 10 ^ d = (n : ℚ) * 10 ^ (d - e) := by
      rw [div_mul_eq_mul_div, div_eq_iff h10, mul_assoc, ← pow_add]
      congr 2
      omega
    simp only [roundScaled, if_pos he]
    rw [hde]
    push_cast
    simp
  · have hs : (0 : ℤ) < 10 ^ (e - d) := by positivity
    have heven : 2 * ((10 : ℤ) ^ (e - d) / 2) = 10 ^ (e - d) := pow_ten_even _ (by omega)
    have hcd : (((10 : ℤ) ^ (e - d) : ℤ) : ℚ) = (10 : ℚ) ^ (e - d) := by norm_cast
    have hval : (n : ℚ) / 10 ^ e * 10 ^ d = (n : ℚ) / 10 ^ (e - d) := by
      have h1 : ((10 : ℚ) ^ e) ≠ 0 := by positivity
      have h2 : ((10 : ℚ) ^ (e - d)) ≠ 0 := by positivity
      field_simp
      rw [mul_assoc, ← pow_add]
      congr 2
      omega
    simp only [roundScaled, if_neg he]
    by_cases hn : 0 ≤ n
    · rw [if_pos hn, hval, ← hcd]
      exact halfUpNearest n (10 ^ (e - d)) hs heven
    · rw [if_neg hn, hval]
      have hnear := halfUpNearest (-n) (10 ^ (e - d)) hs heven
      rw [hcd] at hnear
      push_cast at hnear ⊢
      rw [show -(((-n + 10 ^ (e - d) / 2) / 10 ^ (e - d) : ℤ) : ℚ) - (n : ℚ) / 10 ^ (e - d)
            = -((((-n + 10 ^ (e - d) / 2) / 10 ^ (e - d) : ℤ) : ℚ) - (-n : ℚ) / 10 ^ (e - d))
          from by ring, abs_neg]
      convert hnear using 3

theorem roundScaled_tie_pos (k : ℤ) (d : ℕ) (hk : 0 ≤ k) :
    roundScaled (10 * k + 5) (d + 1) d = k + 1 := by
  have hne : ¬ (d + 1 ≤ d) := by omega
  simp only [roundScaled, if_neg hne]
  rw [show d + 1 - d = 1 from by omega, pow_one]
  rw [if_pos (by omega : (0 : ℤ) ≤ 10 * k + 5)]
  rw [show (10 : ℤ) / 2 = 5 from by decide]
  rw [show (10 * k + 5 + 5 : ℤ) = 10 * (k + 1) from by ring]
  exact Int.mul_ediv_cancel_left _ (by norm_num)

theorem roundScaled_tie_neg (k : ℤ) (d : ℕ) (hk : 0 ≤ k) :
    roundScaled (-(10 * k + 5)) (d + 1) d = -(k + 1) := by
  have hne : ¬ (d + 1 ≤ d) := by omega
  simp only [roundScaled, if_neg hne]
  rw [show d + 1 - d = 1 from by omega, pow_one]
  rw [if_neg (by omega : ¬ (0 : ℤ) ≤ -(10 * k + 5))]
  rw [show (10 : ℤ) / 2 = 5 from by decide, neg_neg]
  rw [show (10 * k + 5 + 5 : ℤ) = 10 * (k + 1) from by ring]
  rw [Int.mul_ediv_cancel_left _ (by norm_num : (10 : ℤ) ≠ 0)]

theorem dchar_ne_comma (k : ℕ) : dchar k ≠ ',' := by
  unfold dchar
  rcases Nat.lt_or_ge k 10 with h | h
  · interval_cases k <;> decide
  · rw [List.getD_eq_default _ _ (by simp [digitChars]; omega : digitChars.length ≤ k)]
    decide

theorem comma_not_mem_natDigitsAux (fuel n : ℕ) : ',' ∉ natDigitsAux fuel n := by
  induction fuel generalizing n with
  | zero => simp [natDigitsAux]
  | succ fuel ih =>
      simp only [natDigitsAux]
      split
      · intro hmem
        rw [List.mem_singleton] at hmem
        exact dchar_ne_comma _ hmem.symm
      · intro hmem
        rcases List.mem_append.mp hmem with h1 | h2
        · exact ih _ h1
        · rw [List.mem_singleton] at h2
          exact dchar_ne_comma _ h2.symm

theorem comma_not_mem_natDigits (n : ℕ) : ',' ∉ natDigits n :=
  comma_not_mem_natDigitsAux _ _

theorem comma_not_mem_padDigits (d n : ℕ) : ',' ∉ padDigits n d := by
  induction d generalizing n with
  | zero => simp [padDigits]
  | succ d ih =>
      simp only [padDigits]
      intro hmem
      rcases List.mem_append.mp hmem with h1 | h2
      · exact ih _ h1
      · rw [List.mem_singleton] at h2
        exact dchar_ne_comma _ h2.symm

theorem padDigits_length (d n : ℕ) : (padDigits n d).length = d := by
  induction d generalizing n with
  | zero => rfl
  | succ d ih => simp [padDigits, ih]

/-- Claim C1: for a statistic column with declared decimal count `d`, the
rounding operation maps each numeric value `n / 10 ^ e` to the nearest
value with `d` decimals using round-half-up — a tie of exactly `x.5`
rounds away from zero, never banker's rounding — and renders the result
with a comma separator followed by exactly `d` comma-free digits, or no
separator when `d = 0`; e.g. `2.5` at `0` decimals yields `3`, and `3.005`
at `2` decimals renders as `"3,01"`. -/
theorem round_data_half_up_spec (n m k : ℤ) (e d : ℕ) :
    |((roundScaled n e d : ℚ)) - (n : ℚ) / 10 ^ e * 10 ^ d| ≤ 1 / 2
    ∧ (0 ≤ k → roundScaled (10 * k + 5) (d + 1) d = k + 1)
    ∧ (0 ≤ k → roundScaled (-(10 * k + 5)) (d + 1) d = -(k + 1))
    ∧ roundCell d (.num n e) = .dec (roundScaled n e d) d
    ∧ (d ≠ 0 →
        renderDecL m d =
          ((if m < 0 then ['-'] else []) ++ natDigits (m.natAbs / 10 ^ d)) ++
            [','] ++ padDigits (m.natAbs % 10 ^ d) d
        ∧ (padDigits (m.natAbs % 10 ^ d) d).length = d
        ∧ ',' ∉ (if m < 0 then ['-'] else []) ++ natDigits (m.natAbs / 10 ^ d)
        ∧ ',' ∉ padDigits (m.natAbs % 10 ^ d) d)
    ∧ ',' ∉ renderDecL m 0
    ∧ roundScaled 25 1 0 = 3
    ∧ renderDec (roundScaled 3005 3 2) 2 = "3,01" := by
  refine ⟨roundScaled_nearest n e d, roundScaled_tie_pos k d, roundScaled_tie_neg k d,
    rfl, ?_, ?_, by decide, by decide⟩
  · intro hd
    refine ⟨?_, padDigits_length d _, ?_, comma_not_mem_padDigits d _⟩
    · simp only [renderDecL, if_neg hd]
      simp [List.append_assoc]
    · intro hmem
      rcases List.mem_append.mp hmem with h1 | h2
      · split at h1
        · rw [List.mem_singleton] at h1
          exact absurd h1 (by decide)
        · simp at h1
      · exact comma_not_mem_natDigits _ h2
  · intro hmem
    simp only [renderDecL, if_pos rfl] at hmem
    rcases List.mem_append.mp hmem with h1 | h2
    · split at h1
      · rw [List.mem_singleton] at h1
        exact absurd h1 (by decide)
      · simp at h1
    · exact comma_not_mem_natDigits _ h2

/-- Witness for claim C1's theorem at concrete inputs: the tie `2.5 → 3`
at zero decimals, and the two-digit fraction part of the rendering of
`3.005` rounded to two decimals. -/
theorem round_data_half_up_spec_witness :
    roundScaled (10 * 2 + 5) (0 + 1) 0 = 2 + 1
    ∧ (padDigits ((301 : ℤ).natAbs % 10 ^ 2) 2).length = 2 :=
  ⟨(round_data_half_up_spec 0 301 2 0 0).2.1 (by decide),
   ((round_data_half_up_spec 0 301 2 0 2).2.2.2.2.1 (by decide)).2.1⟩

theorem parse_isOk (r : RawSchema) :
    (parse r).isOk = (reconcilesB r && refsPresentB r) := by
  unfold parse
  split
  · next h => rw [h]; rfl
  · next h =>
      rw [Bool.not_eq_true] at h
      rw [h]
      rfl

theorem reconcilesB_iff (r : RawSchema) :
    reconcilesB r = true ↔ ∀ e ∈ r.entries,
      e.2.categorical.length + e.2.statistic.length + e.2.suppression.length
        = e.1.expectedColumnCount := by
  simp [reconcilesB, List.all_eq_true, VarGroup.colCount]

theorem refsPresentB_iff (r : RawSchema) :
    refsPresentB r = true ↔ ∀ e ∈ r.entries, ∀ c ∈ e.2.categorical,
      ∃ cl ∈ r.codelists, cl.1 = c.2 := by
  simp [refsPresentB, List.all_eq_true, List.any_eq_true]

/-- Claim C3: schema parsing fails with MalformedSchema exactly when some
subtable's categorical + statistic + suppression column counts differ from
its declared column count or a codelist referenced by a variable is
absent; when the totals reconcile, parse succeeds and the resulting
description's variable column counts sum to each subtable's expected
column count, and no partial description is ever returned on failure. -/
theorem parse_reconciliation (r : RawSchema) :
    ((parse r).isOk = true ↔
      ((∀ e ∈ r.entries,
          e.2.categorical.length + e.2.statistic.length + e.2.suppression.length
            = e.1.expectedColumnCount)
        ∧ (∀ e ∈ r.entries, ∀ c ∈ e.2.categorical,
            ∃ cl ∈ r.codelists, cl.1 = c.2)))
    ∧ (∀ desc, parse r = .ok desc →
        ∀ e ∈ desc.entries,
          e.2.categorical.length + e.2.statistic.length + e.2.suppression.length
            = e.1.expectedColumnCount)
    ∧ ((parse r).isOk = false → parse r = .error .malformedSchema) := by
  refine ⟨?_, ?_, ?_⟩
  · rw [parse_isOk, Bool.and_eq_true, reconcilesB_iff, refsPresentB_iff]
  · intro desc hdesc
    unfold parse at hdesc
    split at hdesc
    · next h =>
        have h12 : reconcilesB r = true ∧ refsPresentB r = true := by simpa using h
        obtain ⟨h1, _⟩ := h12
        injection hdesc with hd
        rw [← hd]
        exact (reconcilesB_iff r).mp h1
    · next h => exact absurd hdesc (by simp)
  · intro hfalse
    cases hp : parse r with
    | ok d =>
        rw [hp] at hfalse
        simp [Except.isOk, Except.toBool] at hfalse
    | error e => cases e; rfl

/-- Witness for claim C3's theorem: a concrete reconcilable schema on
which parse succeeds with matching column sums. -/
theorem parse_reconciliation_witness :
    parse ⟨"06339", [(⟨"a.dat", 2⟩, ⟨[("kjonn", "KL")], [("verdi", 2)], []⟩)],
        [("KL", ["0", "1"])]⟩
      = .ok ⟨"06339", [(⟨"a.dat", 2⟩, ⟨[("kjonn", "KL")], [("verdi", 2)], []⟩)],
        [("KL", ["0", "1"])]⟩
    ∧ ∀ e ∈ ([(⟨"a.dat", 2⟩, ⟨[("kjonn", "KL")], [("verdi", 2)], []⟩)] :
          List (SubTable × VarGroup)),
        e.2.categorical.length + e.2.statistic.length + e.2.suppression.length
          = e.1.expectedColumnCount :=
  ⟨rfl,
   (parse_reconciliation ⟨"06339",
      [(⟨"a.dat", 2⟩, ⟨[("kjonn", "KL")], [("verdi", 2)], []⟩)],
      [("KL", ["0", "1"])]⟩).2.1
    ⟨"06339", [(⟨"a.dat", 2⟩, ⟨[("kjonn", "KL")], [("verdi", 2)], []⟩)],
      [("KL", ["0", "1"])]⟩ rfl⟩

theorem refsPresentB_names (r : RawSchema) :
    refsPresentB r = r.entries.all (fun e => e.2.categorical.all
      (fun c => (r.codelists.map Prod.fst).any (fun nm => nm == c.2))) := by
  unfold refsPresentB
  congr 1
  funext e
  congr 1
  funext c
  induction r.codelists with
  | nil => rfl
  | cons h t ih => simp [ih]

/-- Claim C9: schema parsing tolerates an empty codelist: parse success
depends only on the subtable entries and the codelist names, not on the
codes they hold, so a schema whose referenced codelist has zero codes
(but otherwise reconciles) parses successfully. -/
theorem parse_tolerates_empty_codelist (r r₂ : RawSchema)
    (hent : r.entries = r₂.entries)
    (hnames : r.codelists.map Prod.fst = r₂.codelists.map Prod.fst) :
    (parse r).isOk = (parse r₂).isOk
    ∧ (parse ⟨"06339", [(⟨"a.dat", 1⟩, ⟨[("kjonn", "KL")], [], []⟩)],
        [("KL", [])]⟩).isOk = true := by
  constructor
  · rw [parse_isOk, parse_isOk]
    have h1 : reconcilesB r = reconcilesB r₂ := by
      unfold reconcilesB
      rw [hent]
    have h2 : refsPresentB r = refsPresentB r₂ := by
      rw [refsPresentB_names, refsPresentB_names, hent, hnames]
    rw [h1, h2]
  · decide

/-- Witness for claim C9's theorem: a schema with an empty codelist parses
exactly like the same schema with a populated codelist of the same name. -/
theorem parse_tolerates_empty_codelist_witness :
    (parse ⟨"06339", [(⟨"a.dat", 1⟩, ⟨[("kjonn", "KL")], [], []⟩)],
        [("KL", [])]⟩).isOk
      = (parse ⟨"06339", [(⟨"a.dat", 1⟩, ⟨[("kjonn", "KL")], [], []⟩)],
        [("KL", ["0", "1"])]⟩).isOk :=
  (parse_tolerates_empty_codelist
    ⟨"06339", [(⟨"a.dat", 1⟩, ⟨[("kjonn", "KL")], [], []⟩)], [("KL", [])]⟩
    ⟨"06339", [(⟨"a.dat", 1⟩, ⟨[("kjonn", "KL")], [], []⟩)], [("KL", ["0", "1"])]⟩
    (by decide) (by decide)).1

theorem mem_subFindings (desc : TableDescription) (e : SubTable × VarGroup)
    (p : String × Frame) (f : Finding) (hf : f ∈ subFindings desc e p) :
    (f.category = .columnCount ∧ f.severity = .error)
    ∨ (f.category = .categoricalCode ∧ f.severity = .error ∧
        (∃ i, f.codes
            = catOffenders (lookupCodes desc.codelists
                ((e.2.categorical.getD i ("", "")).2)) (column p.2 i))
        ∧ f.codes ≠ [])
    ∨ (f.category = .numericPrecision ∧ f.severity = .warning) := by
  unfold subFindings at hf
  rcases List.mem_append.mp hf with h12 | h3
  · rcases List.mem_append.mp h12 with h1 | h2
    · left
      unfold colCountFindings at h1
      split at h1
      · rw [List.mem_singleton] at h1
        subst h1
        exact ⟨rfl, rfl⟩
      · exact absurd h1 (List.not_mem_nil f)
    · right; left
      unfold catFindings at h2
      obtain ⟨i, _, hmem⟩ := List.mem_flatMap.mp h2
      split at hmem
      · exact absurd hmem (List.not_mem_nil f)
      · next hne =>
          rw [List.mem_singleton] at hmem
          subst hmem
          refine ⟨rfl, rfl, ⟨i, rfl⟩, ?_⟩
          simpa [List.isEmpty_iff] using hne
  · right; right
    unfold precFindings at h3
    obtain ⟨j, _, hmem⟩ := List.mem_flatMap.mp h3
    split at hmem
    · rw [List.mem_singleton] at hmem
      subst hmem
      exact ⟨rfl, rfl⟩
    · exact absurd hmem (List.not_mem_nil f)

theorem mem_validate (ds : Dataset) (desc : TableDescription) (f : Finding)
    (hf : f ∈ validate ds desc) :
    f = ⟨.error, .subtableCount, "", none, []⟩
    ∨ ∃ q ∈ desc.entries.zip ds, f ∈ subFindings desc q.1 q.2 := by
  unfold validate at hf
  split at hf
  · left
    simpa using hf
  · right
    exact List.mem_flatMap.mp hf

theorem catOffenders_nodup (codes : List String) (col : List CellVal) :
    (catOffenders codes col).Nodup :=
  (List.nodup_dedup col).filter _

theorem mem_catOffenders (codes : List String) (col : List CellVal) (v : CellVal) :
    v ∈ catOffenders codes col ↔ v ∈ col ∧ isCode codes v = false := by
  unfold catOffenders
  rw [List.mem_filter, List.mem_dedup, Bool.not_eq_true']

/-- Claim C4: for every dataset containing categorical values absent from
the relevant codelist, validation reports a categorical-code error naming
each distinct offending value exactly once.  Soundness: every
categorical-code finding of `validate` carries exactly the deduplicated
offenders of its column — its codes are `catOffenders` of that column,
with no duplicates, containing a value iff it occurs in the column and is
outside the codelist, and counting each such value exactly once no matter
how many rows repeat it.  Completeness: whenever the dataset aligns and a
categorical column holds values outside its codelist, `validate` reports a
categorical-code finding whose codes are exactly those offenders. -/
theorem validate_cat_dedup (ds : Dataset) (desc : TableDescription) :
    (∀ f ∈ validate ds desc, f.category = .categoricalCode →
      ∃ q ∈ desc.entries.zip ds, ∃ i,
        f.codes = catOffenders (lookupCodes desc.codelists
            ((q.1.2.categorical.getD i ("", "")).2)) (column q.2.2 i)
        ∧ f.codes.Nodup
        ∧ f.codes ≠ []
        ∧ (∀ v, v ∈ f.codes ↔ v ∈ column q.2.2 i
            ∧ isCode (lookupCodes desc.codelists
                ((q.1.2.categorical.getD i ("", "")).2)) v = false)
        ∧ (∀ v ∈ column q.2.2 i,
            isCode (lookupCodes desc.codelists
              ((q.1.2.categorical.getD i ("", "")).2)) v = false →
            f.codes.count v = 1))
    ∧ (ds.length = desc.entries.length →
        ∀ q ∈ desc.entries.zip ds, ∀ i, i < q.1.2.categorical.length →
        catOffenders (lookupCodes desc.codelists
            ((q.1.2.categorical.getD i ("", "")).2)) (column q.2.2 i) ≠ [] →
        (⟨.error, .categoricalCode, q.1.1.fileName,
            some (q.1.2.categorical.getD i ("", "")).1,
            catOffenders (lookupCodes desc.codelists
              ((q.1.2.categorical.getD i ("", "")).2)) (column q.2.2 i)⟩ : Finding)
          ∈ validate ds desc) := by
  constructor
  · intro f hf hcat
    rcases mem_validate ds desc f hf with h | ⟨q, hq, hsub⟩
    · rw [h] at hcat
      exact absurd hcat (by decide)
    · rcases mem_subFindings desc q.1 q.2 f hsub with ⟨hc, _⟩ | ⟨_, _, ⟨i, hcodes⟩, hne⟩ | ⟨hc, _⟩
      · rw [hcat] at hc
        exact absurd hc (by decide)
      · refine ⟨q, hq, i, hcodes, ?_, hne, ?_, ?_⟩
        · rw [hcodes]
          exact catOffenders_nodup _ _
        · intro v
          rw [hcodes]
          exact mem_catOffenders _ _ v
        · intro v hv hcode
          rw [hcodes]
          exact List.count_eq_one_of_mem (catOffenders_nodup _ _)
            ((mem_catOffenders _ _ v).mpr ⟨hv, hcode⟩)
      · rw [hcat] at hc
        exact absurd hc (by decide)
  · intro hlen q hq i hi hne
    unfold validate
    rw [if_neg (fun hcontra => hcontra hlen)]
    apply List.mem_flatMap.mpr
    refine ⟨q, hq, ?_⟩
    unfold subFindings
    apply List.mem_append.mpr
    left
    apply List.mem_append.mpr
    right
    unfold catFindings
    apply List.mem_flatMap.mpr
    refine ⟨i, List.mem_range.mpr hi, ?_⟩
    rw [if_neg (by simpa [List.isEmpty_iff] using hne)]
    exact List.mem_singleton.mpr rfl

/-- Witness for claim C4's theorem: a column repeating the unknown value
`"9"` in three of four rows makes validate report the categorical-code
finding whose codes are exactly the offenders, and that value is counted
exactly once among them. -/
theorem validate_cat_dedup_witness :
    (⟨.error, .categoricalCode, "a.dat", some "kjonn",
        catOffenders ["0", "1"] [.txt "9", .txt "0", .txt "9", .txt "9"]⟩ : Finding)
      ∈ validate [("a.dat", [[.txt "9"], [.txt "0"], [.txt "9"], [.txt "9"]])]
        ⟨"t", [(⟨"a.dat", 1⟩, ⟨[("kjonn", "KL")], [], []⟩)], [("KL", ["0", "1"])]⟩
    ∧ (catOffenders ["0", "1"] [.txt "9", .txt "0", .txt "9", .txt "9"]).count
        (.txt "9") = 1 := by
  have hmem := (validate_cat_dedup
      [("a.dat", [[.txt "9"], [.txt "0"], [.txt "9"], [.txt "9"]])]
      ⟨"t", [(⟨"a.dat", 1⟩, ⟨[("kjonn", "KL")], [], []⟩)], [("KL", ["0", "1"])]⟩).2
    (by decide)
    ((⟨"a.dat", 1⟩, ⟨[("kjonn", "KL")], [], []⟩),
      ("a.dat", [[.txt "9"], [.txt "0"], [.txt "9"], [.txt "9"]]))
    (by decide) 0 (by decide) (by decide)
  refine ⟨hmem, ?_⟩
  obtain ⟨q, hq, i, hcodes, hnodup, hne, hiff, hcnt⟩ := (validate_cat_dedup
      [("a.dat", [[.txt "9"], [.txt "0"], [.txt "9"], [.txt "9"]])]
      ⟨"t", [(⟨"a.dat", 1⟩, ⟨[("kjonn", "KL")], [], []⟩)], [("KL", ["0", "1"])]⟩).1
    _ hmem rfl
  exact List.count_eq_one_of_mem hnodup (by decide)

/-- Claim C5: for every dataset whose number of subtable entries differs
from the description's number of subtables, validation reports exactly one
subtable-count error and no finding of any other category: the remaining
checks are aborted. -/
theorem validate_subtable_count (ds : Dataset) (desc : TableDescription)
    (h : ds.length ≠ desc.entries.length) :
    validate ds desc = [⟨.error, .subtableCount, "", none, []⟩]
    ∧ ((validate ds desc).filter
        (fun f => f.category == .subtableCount)).length = 1
    ∧ ∀ f ∈ validate ds desc,
        f.category = .subtableCount ∧ f.severity = .error := by
  have hv : validate ds desc = [⟨.error, .subtableCount, "", none, []⟩] := by
    simp [validate, h]
  refine ⟨hv, by rw [hv]; rfl, ?_⟩
  intro f hf
  rw [hv, List.mem_singleton] at hf
  exact ⟨by rw [hf], by rw [hf]⟩

/-- Witness for claim C5's theorem: an empty dataset against a description
with one subtable yields exactly the one subtable-count error. -/
theorem validate_subtable_count_witness :
    validate [] ⟨"06339", [(⟨"a.dat", 1⟩, ⟨[], [("verdi", 0)], []⟩)], []⟩
      = [⟨.error, .subtableCount, "", none, []⟩] :=
  (validate_subtable_count []
    ⟨"06339", [(⟨"a.dat", 1⟩, ⟨[], [("verdi", 0)], []⟩)], []⟩ (by decide)).1

theorem passable_filter_of_precision_warning (r : List Finding)
    (h : ∀ f ∈ r, f.category = .numericPrecision → f.severity = .warning) :
    passable r = passable (r.filter (fun f => f.category != .numericPrecision)) := by
  induction r with
  | nil => rfl
  | cons f r ih =>
      have hr : ∀ g ∈ r, g.category = .numericPrecision → g.severity = .warning :=
        fun g hg => h g (List.mem_cons_of_mem f hg)
      by_cases hc : f.category = .numericPrecision
      · have hw : f.severity = .warning := h f (List.mem_cons_self f r) hc
        have hkeep : (f.category != Category.numericPrecision) = false := by
          simp [hc]
        simp only [passable, List.filter_cons, hkeep, List.all_cons, if_neg]
        rw [show (f.severity != Severity.error) = true from by rw [hw]; rfl]
        rw [Bool.true_and]
        exact ih hr
      · have hkeep : (f.category != Category.numericPrecision) = true := by
          simp [hc]
        simp only [passable, List.filter_cons, hkeep, List.all_cons, if_pos]
        have hrec := ih hr
        simp only [passable] at hrec
        rw [hrec]

/-- Claim C6: numeric-precision findings are never issued at error
severity: every numeric-precision finding of a validation report carries
warning severity, and removing all numeric-precision findings never
changes whether the report is passable (so they never block a transfer). -/
theorem validate_precision_nonblocking (ds : Dataset) (desc : TableDescription) :
    (∀ f ∈ validate ds desc, f.category = .numericPrecision →
      f.severity = .warning)
    ∧ passable (validate ds desc)
        = passable ((validate ds desc).filter
            (fun f => f.category != .numericPrecision)) := by
  have hwarn : ∀ f ∈ validate ds desc, f.category = .numericPrecision →
      f.severity = .warning := by
    intro f hf hcat
    rcases mem_validate ds desc f hf with h | ⟨q, _, hsub⟩
    · rw [h] at hcat
      exact absurd hcat (by decide)
    · rcases mem_subFindings desc q.1 q.2 f hsub with ⟨hc, _⟩ | ⟨hc, _, _, _⟩ | ⟨_, hs⟩
      · rw [hcat] at hc
        exact absurd hc (by decide)
      · rw [hcat] at hc
        exact absurd hc (by decide)
      · exact hs
  exact ⟨hwarn, passable_filter_of_precision_warning _ hwarn⟩

/-- Witness for claim C6's theorem: a statistic value `3.005` against two
declared decimals yields a numeric-precision finding, and its severity is
warning. -/
theorem validate_precision_nonblocking_witness :
    (⟨.warning, .numericPrecision, "a.dat", some "verdi", []⟩ : Finding)
      ∈ validate [("a.dat", [[.num 3005 3]])]
        ⟨"t", [(⟨"a.dat", 1⟩, ⟨[], [("verdi", 2)], []⟩)], []⟩
    ∧ Finding.severity ⟨.warning, .numericPrecision, "a.dat", some "verdi", []⟩
        = .warning :=
  ⟨by decide,
   (validate_precision_nonblocking [("a.dat", [[.num 3005 3]])]
     ⟨"t", [(⟨"a.dat", 1⟩, ⟨[], [("verdi", 2)], []⟩)], []⟩).1
     ⟨.warning, .numericPrecision, "a.dat", some "verdi", []⟩ (by decide) (by decide)⟩

/-- Claim C7: validation is a pure function of its inputs: in the
explicit-state embedding it performs no network access and leaves the
caller's dataset unmodified, surfacing findings only in the returned
report; rounding likewise leaves the world and the caller's dataset
untouched and produces a new dataset with the same subtable names. -/
theorem validate_pure (w : World) (ds : Dataset) (desc : TableDescription) :
    (validateRun w ds desc).2 = w
    ∧ (validateRun w ds desc).1.2 = ds
    ∧ (validateRun w ds desc).1.1 = validate ds desc
    ∧ (roundDataRun w ds desc).2 = w
    ∧ (roundDataRun w ds desc).1.2 = ds
    ∧ (round_data ds desc).map Prod.fst = ds.map Prod.fst :=
  ⟨rfl, rfl, rfl, rfl, rfl, by simp [round_data]⟩

/-- Claim C8: batch submission requires every member job to be Delayed
(any other state fails with no events), fails before any submission occurs
when a member has different explicitly-set credentials (no events at all,
so no job submitted), and on success copies the first job's credentials
onto all members, prompts for authentication exactly once, and submits the
jobs in input order. -/
theorem submitBatch_spec (jobs out : List TransferJob) (first : TransferJob)
    (rest : List TransferJob) (evs : List BatchEvent) :
    ((∃ j ∈ jobs, j.state ≠ .delayed) →
      (submitBatch jobs).1 = .error .notDelayed ∧ (submitBatch jobs).2 = [])
    ∧ (jobs = first :: rest →
        (∃ j ∈ jobs, j.loaduser.isSome = true ∧ j.loaduser ≠ first.loaduser) →
        (submitBatch jobs).1.isOk = false ∧ (submitBatch jobs).2 = [])
    ∧ (jobs = first :: rest → submitBatch jobs = (.ok out, evs) →
        evs = .promptAuth :: jobs.map (fun j => .submitJob j.tableId)
        ∧ evs.count .promptAuth = 1
        ∧ (∀ j ∈ out, j.loaduser = first.loaduser ∧ j.state = .submitted)
        ∧ out.map (fun j => j.tableId) = jobs.map (fun j => j.tableId)) := by
  refine ⟨?_, ?_, ?_⟩
  · intro ⟨j, hj, hst⟩
    have hany : jobs.any (fun j => j.state != JobState.delayed) = true :=
      List.any_eq_true.mpr ⟨j, hj, by simpa using hst⟩
    constructor <;> simp [submitBatch, hany]
  · intro hcons hex
    obtain ⟨j, hj, hsome, hne⟩ := hex
    by_cases hany : jobs.any (fun j => j.state != JobState.delayed) = true
    · constructor <;> simp [submitBatch, hany, Except.isOk, Except.toBool]
    · have hany2 : jobs.any (fun j => j.state != JobState.delayed) = false := by
        simpa using hany
      have hmis : jobs.any
          (fun j => j.loaduser.isSome && j.loaduser != first.loaduser) = true :=
        List.any_eq_true.mpr ⟨j, hj, by simp [hsome, hne]⟩
      subst hcons
      constructor <;> simp [submitBatch, hany2, hmis, Except.isOk, Except.toBool]
  · intro hcons heq
    subst hcons
    by_cases hany : (first :: rest).any (fun j => j.state != JobState.delayed) = true
    · simp [submitBatch, hany] at heq
    · have hany2 : (first :: rest).any
          (fun j => j.state != JobState.delayed) = false := by
        simpa using hany
      by_cases hmis : (first :: rest).any
          (fun j => j.loaduser.isSome && j.loaduser != first.loaduser) = true
      · simp [submitBatch, hany2, hmis] at heq
      · have hmis2 : (first :: rest).any
            (fun j => j.loaduser.isSome && j.loaduser != first.loaduser) = false := by
          simpa using hmis
        simp only [submitBatch, hany2, hmis2, Bool.false_eq_true, if_false,
          Prod.mk.injEq] at heq
        obtain ⟨hout, hevs⟩ := heq
        have hout2 : out = (first :: rest).map (fun j =>
            { j with loaduser := first.loaduser, state := JobState.submitted }) := by
          have := hout
          injection this with h
          exact h.symm
        have hcount : ∀ (l : List TransferJob),
            (l.map (fun j => BatchEvent.submitJob j.tableId)).count
              BatchEvent.promptAuth = 0 := by
          intro l
          rw [List.count_eq_zero]
          intro hmem
          obtain ⟨j0, _, hj0⟩ := List.mem_map.mp hmem
          exact BatchEvent.noConfusion hj0
        refine ⟨hevs.symm, ?_, ?_, ?_⟩
        · rw [← hevs]
          simp [List.count_cons, hcount]
        · intro j hj
          rw [hout2] at hj
          obtain ⟨j0, _, rfl⟩ := List.mem_map.mp hj
          exact ⟨rfl, rfl⟩
        · rw [hout2]
          simp [List.map_map, Function.comp]

/-- Witness for claim C8's theorem: a two-job batch whose second job has
no explicitly-set credentials submits in order, prompts once, and ends
with both jobs carrying the first job's loading user. -/
theorem submitBatch_spec_witness :
    ([BatchEvent.promptAuth, .submitJob "06339", .submitJob "08531"] :
        List BatchEvent).count .promptAuth = 1
    ∧ ∀ j ∈ ([⟨"06339", .submitted, some "LAST360"⟩,
        ⟨"08531", .submitted, some "LAST360"⟩] : List TransferJob),
        j.loaduser = some "LAST360" ∧ j.state = .submitted :=
  ⟨((submitBatch_spec
      [⟨"06339", .delayed, some "LAST360"⟩, ⟨"08531", .delayed, none⟩]
      [⟨"06339", .submitted, some "LAST360"⟩, ⟨"08531", .submitted, some "LAST360"⟩]
      ⟨"06339", .delayed, some "LAST360"⟩ [⟨"08531", .delayed, none⟩]
      [.promptAuth, .submitJob "06339", .submitJob "08531"]).2.2 rfl rfl).2.1,
   ((submitBatch_spec
      [⟨"06339", .delayed, some "LAST360"⟩, ⟨"08531", .delayed, none⟩]
      [⟨"06339", .submitted, some "LAST360"⟩, ⟨"08531", .submitted, some "LAST360"⟩]
      ⟨"06339", .delayed, some "LAST360"⟩ [⟨"08531", .delayed, none⟩]
      [.promptAuth, .submitJob "06339", .submitJob "08531"]).2.2 rfl rfl).2.2.1⟩

/-- Claim C10: for every parsed description, transferdata_template returns
a dict whose keys are exactly the description's subtable file names; when
dataframes are passed (one per subtable) they become the corresponding
values in subtable order, and the returned dict passes the subtable-count
check of validate (it is directly usable as the dataset argument). -/
theorem transferdata_template_spec (desc : TableDescription)
    (frames : List Frame) :
    ((transferdata_template desc frames).map Prod.fst
        = desc.entries.map (fun e => e.1.fileName))
    ∧ (frames.length = desc.entries.length →
        (transferdata_template desc frames).map Prod.snd = frames)
    ∧ (∀ f ∈ validate (transferdata_template desc frames) desc,
        f.category ≠ .subtableCount) := by
  have hkeys : (transferdata_template desc frames).map Prod.fst
      = desc.entries.map (fun e => e.1.fileName) := by
    unfold transferdata_template
    split
    · next hlen =>
        exact List.map_fst_zip _ _ (le_of_eq hlen.symm)
    · simp
  refine ⟨hkeys, ?_, ?_⟩
  · intro hlen
    unfold transferdata_template
    rw [if_pos (by simpa using hlen)]
    exact List.map_snd_zip _ _ (by simpa using le_of_eq hlen)
  · have hlen2 : (transferdata_template desc frames).length = desc.entries.length := by
      have h1 := congrArg List.length hkeys
      simpa using h1
    intro f hf
    unfold validate at hf
    rw [if_neg (fun hne => hne hlen2)] at hf
    obtain ⟨q, _, hsub⟩ := List.mem_flatMap.mp hf
    rcases mem_subFindings desc q.1 q.2 f hsub with ⟨hc, _⟩ | ⟨hc, _⟩ | ⟨hc, _⟩ <;>
      rw [hc] <;> decide

/-- Witness for claim C10's theorem: two dataframes passed for a
two-subtable description are incorporated as the values in order. -/
theorem transferdata_template_spec_witness :
    (transferdata_template
        ⟨"07495", [(⟨"kargrs01fylker1.dat", 1⟩, ⟨[], [("v", 0)], []⟩),
          (⟨"kargrs01landet1.dat", 1⟩, ⟨[], [("v", 0)], []⟩)], []⟩
        [[[.num 1 0]], [[.num 2 0]]]).map Prod.snd
      = [[[.num 1 0]], [[.num 2 0]]] :=
  (transferdata_template_spec
    ⟨"07495", [(⟨"kargrs01fylker1.dat", 1⟩, ⟨[], [("v", 0)], []⟩),
      (⟨"kargrs01landet1.dat", 1⟩, ⟨[], [("v", 0)], []⟩)], []⟩
    [[[.num 1 0]], [[.num 2 0]]]).2.1 (by decide)

end Statbank
